import Mathlib

/-!
Verification of the ATC-parsing semantic pipeline
(src/ATC_parsing/semantic_parsing.py) against its specification.

The development shallowly embeds the string-rewriting core of the pipeline:
Python strings become Lean String / List Char, Python dicts (which preserve
insertion order) become association lists or update functions, and the two
external collaborators that are not part of the repository source -- the NLTK
CCG chart parser and the compiled-regex match enumeration of the re module --
are abstracted as oracle functions whose outputs are constrained, in the
theorems that need it, by exactly the shape the regex pattern or the lexicon
guarantees.  Every other function is translated line by line from the source.
-/

namespace ATC

/-- Fuel-driven worker for the embedding of Python str.replace: scan left
to right, replacing each non-overlapping occurrence of the pattern and
continuing after the inserted replacement.  The fuel only serves structural
recursion; any fuel of at least the input length gives the same result. -/
def replaceAllCF (pat rep : List Char) : Nat → List Char → List Char
  | _, [] => []
  | 0, s => s
  | Nat.succ fuel, c :: r =>
      if pat ≠ [] ∧ pat.isPrefixOf (c :: r) then
        rep ++ replaceAllCF pat rep fuel (r.drop (pat.length - 1))
      else
        c :: replaceAllCF pat rep fuel r

/-- Embedding of the Python expression s.replace(pat, rep) on character
lists, for a non-empty pattern.  All call sites in the source use non-empty
patterns; the empty pattern is mapped to the identity. -/
def replaceAllC (pat rep s : List Char) : List Char :=
  replaceAllCF pat rep s.length s

/-- Python str.replace on String values. -/
def replaceAllS (pat rep s : String) : String :=
  String.mk (replaceAllC pat.toList rep.toList s.toList)

/-- One list is obtained from another by replacing some disjoint occurrences
of pat by rep.  Every function of the source that edits a logical form via
re.sub or str.replace produces a list related to its input by this relation. -/
inductive Replaced (pat rep : List Char) : List Char → List Char → Prop
  | nil : Replaced pat rep [] []
  | cons (c : Char) {s t : List Char} :
      Replaced pat rep s t → Replaced pat rep (c :: s) (c :: t)
  | subst {s t : List Char} :
      Replaced pat rep s t → Replaced pat rep (pat ++ s) (rep ++ t)

/-- Embedding of the Python expression s.split(sep) for a one-character
separator: the list of (possibly empty) chunks between separators. -/
def splitOnChar (sep : Char) : List Char → List (List Char)
  | [] => [[]]
  | c :: l =>
      if c = sep then [] :: splitOnChar sep l
      else match splitOnChar sep l with
        | [] => [[c]]
        | h :: t => (c :: h) :: t

/-- Embedding of Python sep.join for a one-character separator. -/
def joinChar (sep : Char) : List (List Char) → List Char
  | [] => []
  | [x] => x
  | x :: y :: xs => x ++ sep :: joinChar sep (y :: xs)

/-!
Embedding of re.sub with a word-boundary-delimited literal pattern and
count 1, which is how parse_segment substitutes replacement values for
placeholders (semantic_parsing.py lines 1214-1220).
-/

/-- Word characters in the sense of the regex metacharacter b: the keys the
source substitutes are placeholders made of ASCII letters and digits. -/
def isWordChar (c : Char) : Bool := c.isAlphanum || c = '_'

/-- Word-boundary test against the character preceding the candidate match
(none at the start of the string). -/
def boundaryOk (prev : Option Char) : Bool :=
  match prev with
  | none => true
  | some p => !(isWordChar p)

/-- Word-boundary test against the remainder following the candidate match. -/
def boundaryAfter (l : List Char) : Bool :=
  match l with
  | [] => true
  | c :: _ => !(isWordChar c)

/-- Replace the first word-boundary-delimited occurrence of x by rep,
scanning left to right; prev is the character before the current position. -/
def subWordFirstC (x rep : List Char) (prev : Option Char) : List Char → List Char
  | [] => []
  | c :: r =>
      if x.isPrefixOf (c :: r) ∧ boundaryOk prev ∧ boundaryAfter ((c :: r).drop x.length) then
        rep ++ (c :: r).drop x.length
      else
        c :: subWordFirstC x rep (some c) r

/-- Embedding of re.sub(r"b" + X + r"b", rep, s, count=1) for a placeholder
key X.  The source only ever builds such patterns from placeholder names
(letters and digits); a key containing regex metacharacters would make
re.compile fail, a situation that cannot arise from the resource files, and
the embedding keeps the operation total by leaving the string unchanged in
that case. -/
def subWordFirstS (x rep s : String) : String :=
  if x ≠ "" ∧ x.toList.all isWordChar then
    String.mk (subWordFirstC x.toList rep.toList none s.toList)
  else s

/-!
Embedding of parse_segment (semantic_parsing.py lines 1138-1225).  The NLTK
chart parser is abstracted as a function parse from the expanded segment
string to the semantics string of the first parse (none when the parse list
is empty); the replacement dictionaries are association lists in insertion
order, as Python dicts iterate.
-/

/-- Expansion loop of parse_segment (lines 1179-1198): try the segment, then
with one more leading context token per attempt, up to maxExpansions extra
attempts, stopping at the first successful parse. -/
def tryExpansions (parse : String → Option String) : Nat → String → Option String
  | 0, seg => parse seg
  | Nat.succ n, seg =>
      match parse seg with
      | some lf => some lf
      | none => tryExpansions parse n ("_context_ " ++ seg)

/-- Embedding of parse_segment: parse with expansion, substitute the two
replacement maps (surfaces wrapped in asterisks, first occurrence only,
word-boundary delimited), then strip every surrogate angle marker. -/
def parse_segment (parse : String → Option String) (segment : String)
    (maxExpansions : Nat) (rep1 rep2 : List (String × String)) : String :=
  match tryExpansions parse maxExpansions segment with
  | none => ""
  | some LF =>
      let lf1 := rep1.foldl (fun a pr => subWordFirstS pr.1 ("*" ++ pr.2 ++ "*") a) LF
      let lf2 := rep2.foldl (fun a pr => subWordFirstS pr.1 ("*" ++ pr.2 ++ "*") a) lf1
      replaceAllS ">" "" (replaceAllS "<" "" lf2)

/-- Apply a list of regex matches as Python-style replace-all rewrites, in
match order, each on the result of the previous one, exactly as the
finditer-then-replace loops of the source do. -/
def applyPairs (prs : List (String × String)) (s : String) : String :=
  prs.foldl (fun a pr => replaceAllS pr.1 pr.2 a) s

/-!
Embedding of clean_LF (lines 769-845).  The three finditer passes are given
as oracle functions from the pass input to the list of (whole match, group 2)
pairs; the bracket checker guarding the third pass (lines 813-841) is
translated literally.
-/

/-- Literal translation of the bracket-checking loop of clean_LF
(lines 814-841), scanning with open and close counters and the min_equal
marker. -/
def bracketScan : List Char → Nat → Nat → Nat → Bool
  | [], bo, bc, _ => bo == bc
  | c :: rest, bo, bc, me =>
      let bo2 := if c = '(' then bo + 1 else bo
      let bc2 := if c = ')' then bc + 1 else bc
      if bo2 < bc2 then false
      else
        let me2 := if bo2 = bc2 ∧ me = 0 ∧ 0 < bo2 then bo2 else me
        if 0 < me2 ∧ (me2 < bo2 ∨ me2 < bc2) then false
        else bracketScan rest bo2 bc2 me2

/-- Bracket check of the third clean_LF pass on a candidate replacement. -/
def bracket_check (s : String) : Bool := bracketScan s.toList 0 0 0

/-- One unconditional finditer-and-replace pass: the matches of the pass
input, given by the oracle, are applied as replace-all rewrites in order. -/
def applyOracle (o : String → List (String × String)) (s : String) : String :=
  applyPairs (o s) s

/-- The bracket-guarded finditer-and-replace pass of clean_LF: a match is
only applied when its group 2 passes the bracket check of lines 813-841. -/
def applyOracleChecked (o : String → List (String × String)) (s : String) : String :=
  (o s).foldl (fun a pr => if bracket_check pr.2 then replaceAllS pr.1 pr.2 a else a) s

/-- Embedding of clean_LF: the asterisk cleanup, the two unconditional
duplicated-function passes, and the bracket-guarded third pass.  Each oracle
function returns, for the pass input, the (whole match, group 2) pairs of
the corresponding finditer call, in match order. -/
def clean_LF (o2 o3 o4 : String → List (String × String)) (LF : String) : String :=
  applyOracleChecked o4 (applyOracle o3 (applyOracle o2
    (replaceAllS ")*" ")" (replaceAllS "*_" "_" LF))))

/-- Context unwrapping applied to every successful piece (lines 1260-1265
and 1287-1293): each finditer match of the context-unwrap pattern, given by
the oracle, is replaced everywhere by underscore plus its group 1. -/
def ctxUnwrap (ctxOr : String → List (String × String)) (p : String) : String :=
  applyOracle ctxOr p

/-- Post-processing of one successfully parsed piece inside parse_command:
context unwrapping always, clean_LF only for steps after the first. -/
def postPiece (ctxOr o2 o3 o4 : String → List (String × String))
    (step : Nat) (p : String) : String :=
  let p1 := ctxUnwrap ctxOr p
  if 0 < step then clean_LF o2 o3 o4 p1 else p1

/-!
Embedding of parse_command (lines 1228-1310): the whole-stream attempt,
the segmenting fallback, and the final literal replacements.
-/

/-- Python space split of a command stream. -/
def splitSpace (s : String) : List String :=
  (splitOnChar ' ' s.toList).map String.mk

/-- Python space join of a word list. -/
def joinSpace (l : List String) : String :=
  String.mk (joinChar ' ' (l.map String.toList))

/-- Accumulation of accepted pieces into LF_final: each piece is followed by
a semicolon and a space, exactly as the += of the source builds the string. -/
def joinSemiPieces : List String → String
  | [] => ""
  | p :: ps => p ++ "; " ++ joinSemiPieces ps

/-- Inner prefix loop of the segmenting fallback (lines 1280-1300): try the
prefix of j+1 words, then shorter ones down to a single word, submitting
each to parse_segment; returns the submitted token lists and, on success,
the accepted index with its raw piece. -/
def tryPrefixes (parse : String → Option String) (rep1 rep2 : List (String × String))
    (words : List String) : Nat → List (List String) × Option (Nat × String)
  | 0 =>
      let toks := words.take 1
      let r := parse_segment parse (joinSpace toks) 1 rep1 rep2
      if r ≠ "" then ([toks], some (0, r)) else ([toks], none)
  | Nat.succ j2 =>
      let toks := words.take (j2 + 2)
      let r := parse_segment parse (joinSpace toks) 1 rep1 rep2
      if r ≠ "" then ([toks], some (j2 + 1, r))
      else
        let pr := tryPrefixes parse rep1 rep2 words j2
        (toks :: pr.1, pr.2)

/-- Outer while loop of the segmenting fallback (lines 1277-1303): the index
starts at the word count minus one, capped by the skip guard at
max_segment_length = 7; an accepted prefix is consumed and the loop
continues on the joined remainder; if even the one-word prefix fails, the
whole remaining stream is discarded.  Returns the submitted token lists and
the processed pieces in order. -/
def fallbackGoF (parse : String → Option String) (rep1 rep2 : List (String × String))
    (ctxOr o2 o3 o4 : String → List (String × String)) (step : Nat) :
    Nat → List String → List (List String) × List String
  | 0, _ => ([], [])
  | Nat.succ fuel, words =>
      let j0 := min (words.length - 1) 7
      let tr := tryPrefixes parse rep1 rep2 words j0
      match tr.2 with
      | none => (tr.1, [])
      | some jlf =>
          let piece := postPiece ctxOr o2 o3 o4 step jlf.2
          if joinSpace (words.drop (jlf.1 + 1)) = "" then (tr.1, [piece])
          else
            let pr := fallbackGoF parse rep1 rep2 ctxOr o2 o3 o4 step fuel
              (words.drop (jlf.1 + 1))
            (tr.1 ++ pr.1, piece :: pr.2)

/-- Outer fallback loop with the fuel instantiated to the word count, which
bounds the number of iterations because every accepted prefix consumes at
least one word. -/
def fallbackGo (parse : String → Option String) (rep1 rep2 : List (String × String))
    (ctxOr o2 o3 o4 : String → List (String × String)) (step : Nat)
    (words : List String) : List (List String) × List String :=
  fallbackGoF parse rep1 rep2 ctxOr o2 o3 o4 step words.length words

/-- Input of one parse_command invocation: the placeholder stream and the
two replacement maps. -/
structure PCIn where
  stream : String
  rep1 : List (String × String)
  rep2 : List (String × String)

/-- Output of one parse_command invocation: the token lists submitted to the
parser by the segmenting fallback, and the returned logical form. -/
structure PCOut where
  subs : List (List String)
  lf : String

/-- Embedding of parse_command: whole-stream attempt first; on failure the
segmenting fallback (entered only for a non-empty stream, as the while
guard of line 1277 requires); final literal replacements of STOP and the
newline-asterisk artefacts for steps after the first. -/
def parse_command_model (parse : String → Option String)
    (ctxOr o2 o3 o4 : String → List (String × String))
    (step : Nat) (inp : PCIn) : PCOut :=
  let first := parse_segment parse inp.stream 1 inp.rep1 inp.rep2
  let sp :=
    if first ≠ "" then ([], [postPiece ctxOr o2 o3 o4 step first])
    else if inp.stream = "" then ([], [])
    else fallbackGo parse inp.rep1 inp.rep2 ctxOr o2 o3 o4 step (splitSpace inp.stream)
  let body := joinSemiPieces sp.2
  let lf := if 0 < step then replaceAllS "\n*" "" (replaceAllS "STOP_(" "_(" body) else body
  ⟨sp.1, lf⟩

/-!
Embedding of LF2placeholders (lines 1062-1135), the per-category placeholder
cap table of read_regex (lines 203-214), and the pipeline controller of
parsing (lines 1316-1331).
-/

/-- Per-category placeholder cap table dPlaceholderNumber, with the OTHER
default of 5 (lines 203-214). -/
def placeholderNumber (category : String) : Nat :=
  if category = "CLOUDS" then 6
  else if category = "FEATURE" then 8
  else if category = "INTNUMBER" then 9
  else if category = "PHONETICALPHABET" then 6
  else if category = "REQUESTINSTRUCTION" then 8
  else if category = "RUNWAY" then 6
  else if category = "SIDE" then 9
  else if category = "STATUS" then 8
  else if category = "TO" then 6
  else if category = "WORDNUMBER" then 30
  else 5

/-- Drop a trailing run of characters satisfying p. -/
def dropTrailWhile (p : Char → Bool) : List Char → List Char
  | [] => []
  | c :: l =>
      let r := dropTrailWhile p l
      if r = [] ∧ p c then [] else c :: r

/-- Embedding of the Python str.strip(cs) call: remove the characters of cs
from both ends. -/
def pyStrip (cs : List Char) (s : String) : String :=
  String.mk (dropTrailWhile (fun c => cs.contains c)
    (s.toList.dropWhile (fun c => cs.contains c)))

/-- Embedding of Python str.upper restricted to the character map of
Char.toUpper, written over the character list so that it evaluates inside
the kernel. -/
def pyUpper (s : String) : String := String.mk (s.toList.map Char.toUpper)

/-- Embedding of Python str.lower, written over the character list. -/
def pyLower (s : String) : String := String.mk (s.toList.map Char.toLower)

/-- Embedding of Python str.startswith, written over the character lists. -/
def pyStartsWith (s pre : String) : Bool := pre.toList.isPrefixOf s.toList

/-- Fuel-driven worker for the embedding of Python str.split with a
multi-character separator; any fuel of at least the input length gives the
final value. -/
def splitOnListF (sep : List Char) : Nat → List Char → List (List Char)
  | _, [] => [[]]
  | 0, s => [s]
  | Nat.succ fuel, c :: r =>
      if sep ≠ [] ∧ sep.isPrefixOf (c :: r) then
        [] :: splitOnListF sep fuel (r.drop (sep.length - 1))
      else
        let t := splitOnListF sep fuel r
        (c :: t.headD []) :: t.tail

/-- Embedding of Python str.split with a multi-character separator. -/
def splitOnList (sep s : List Char) : List (List Char) :=
  splitOnListF sep s.length s

/-- Embedding of the Python substring test s.find(needle) >= 0. -/
def containsSub (needle : List Char) : List Char → Bool
  | [] => needle.isEmpty
  | c :: r => needle.isPrefixOf (c :: r) || containsSub needle r

/-- Head-category search of LF2placeholders (lines 1112-1117): the first
fragment around the underscore-parenthesis splits that is not all lowercase
or mentions context names the category, stripped of underscores and
lowercased. -/
def findCategory : List String → String
  | [] => ""
  | it :: rest =>
      if pyLower it ≠ it ∨ containsSub "context".toList it.toList then
        pyLower (pyStrip ['_'] it)
      else findCategory rest

/-- String of n copies of one character, as the Python repetition of the
surrogate markers produces. -/
def repeatChar (c : Char) (n : Nat) : String := String.mk (List.replicate n c)

/-- Result of LF2placeholders: the new placeholder stream, the replacement
map in insertion order, and the (category, index) allocation events in
emission order. -/
structure LF2PH where
  stream : String
  reps : List (String × String)
  events : List (String × Nat)

/-- Per-item preprocessing of LF2placeholders (lines 1100-1120): strip the
semicolon chunk, skip it when empty, wrap an all-lowercase item in a context
shell, and locate the head category, skipping the item when none is found. -/
def lf2phItemCat (it0 : String) : Option String :=
  let it1 := pyStrip [' '] it0
  if it1 = "" then none
  else
    let it2 := if pyLower it1 = it1 then "_context_(" ++ it1 ++ ")" else it1
    let cat := findCategory ((splitOnList "_(".toList it2.toList).map String.mk)
    if cat = "" then none else some cat

/-- Replacement value stored for a kept item: the stripped and possibly
context-wrapped item (before the angle markers are added). -/
def lf2phItemVal (it0 : String) : String :=
  let it1 := pyStrip [' '] it0
  if pyLower it1 = it1 then "_context_(" ++ it1 ++ ")" else it1

/-- Item loop of LF2placeholders: allocate the next placeholder index of the
head category with no upper bound, and record the replacement value wrapped
in count angle markers on each side. -/
def lf2phGo (counts : String → Nat) (count : Nat) : List String → LF2PH
  | [] => ⟨"", [], []⟩
  | it0 :: rest =>
      match lf2phItemCat it0 with
      | none => lf2phGo counts count rest
      | some cat =>
          let n := counts cat + 1
          let cid := cat ++ toString n
          let c2 := count + 1
          let pr := lf2phGo (fun k => if k = cat then n else counts k) c2 rest
          ⟨cid ++ " " ++ pr.stream,
           (cid, repeatChar '<' c2 ++ lf2phItemVal it0 ++ repeatChar '>' c2) :: pr.reps,
           (cat, n) :: pr.events⟩

/-- Embedding of LF2placeholders: split the previous logical form on
semicolons and run the item loop with fresh counters. -/
def LF2placeholders (LF : String) : LF2PH :=
  lf2phGo (fun _ => 0) 0 ((splitOnChar ';' LF.toList).map String.mk)

/-- Inner iteration of the controller of parsing (lines 1316-1331) for the
steps after the first: compute the next logical form, stop as soon as it
equals the previous one, otherwise continue with the remaining budget. -/
def stepLoop (f : String → String) : String → Nat → String
  | lf, 0 => lf
  | lf, Nat.succ m =>
      let lf2 := f lf
      if lf2 = lf then lf2 else stepLoop f lf2 m

/-- Controller of parsing: LF_old starts empty and LF is only assigned
inside the loop, so a zero step budget reaches the final return with LF
unbound (a Python NameError), modelled as none; with at least one step the
first stage runs, the loop breaks when a stage reproduces the previous
logical form, and the last computed logical form is returned. -/
def pipelineLoop (g f : String → String) (command : String) : Nat → Option String
  | 0 => none
  | Nat.succ m =>
      let lf0 := g command
      if lf0 = "" then some lf0 else some (stepLoop f lf0 m)

/-- Mathematical iterates of the later-stage function, used to speak about
the logical form stage k would compute. -/
def iterF (f : String → String) : Nat → String → String
  | 0, x => x
  | Nat.succ n, x => iterF f n (f x)

/-- Stage 0 of the pipeline: parse_command on the unfiltered parser with the
step-0 placeholder stream.  The function mk0 packages command_normalization,
text2placeholders, replace_unknown_phrases and the stray-x collapse
(lines 1234-1244), whose regex battery runs over resource files that are
not part of src and is therefore abstracted as an oracle from the raw
command to the stream and the two replacement maps. -/
def stage0Fn (parse0 : String → Option String) (mk0 : String → PCIn)
    (ctxOr o2 o3 o4 : String → List (String × String)) (c : String) : String :=
  (parse_command_model parse0 ctxOr o2 o3 o4 0 (mk0 c)).lf

/-- Stages 1 and later of the pipeline: parse_command on the filtered parser
with the stream and replacement map produced by LF2placeholders from the
previous logical form; the second replacement map stays empty at these
steps (line 1231). -/
def stageNFn (parseN : String → Option String)
    (ctxOr o2 o3 o4 : String → List (String × String)) (lf : String) : String :=
  let d := LF2placeholders lf
  (parse_command_model parseN ctxOr o2 o3 o4 1 ⟨d.stream, d.reps, []⟩).lf

/-- Embedding of parsing (lines 1316-1331): the controller loop over the
two stage functions. -/
def parsingModel (parse0 parseN : String → Option String) (mk0 : String → PCIn)
    (ctxOr o2 o3 o4 : String → List (String × String))
    (command : String) (numberOfSteps : Nat) : Option String :=
  pipelineLoop (stage0Fn parse0 mk0 ctxOr o2 o3 o4) (stageNFn parseN ctxOr o2 o3 o4)
    command numberOfSteps

/-- Logical form computed by stage k, as a mathematical iterate: stage 0 is
the first parse_command pass, every later stage applies the filtered pass
to the previous logical form. -/
def stageLF (parse0 parseN : String → Option String) (mk0 : String → PCIn)
    (ctxOr o2 o3 o4 : String → List (String × String))
    (command : String) (k : Nat) : String :=
  iterF (stageNFn parseN ctxOr o2 o3 o4) k (stage0Fn parse0 mk0 ctxOr o2 o3 o4 command)

/-- Concrete parser instance for witnesses: a parser that never yields a
parse. -/
def alwaysNoneParse : String → Option String := fun _ => none

/-- Concrete step-0 oracle instance for witnesses: empty stream and empty
replacement maps. -/
def emptyMk0 : String → PCIn := fun _ => ⟨"", [], []⟩

/-- Concrete match oracle instance for witnesses: the finditer calls find
no matches. -/
def noOracle : String → List (String × String) := fun _ => []

/-!
Embedding of the resource loaders: the regex-table loop of read_regex
(lines 117-127) and read_lexicon_complex (lines 300-360).  Python dicts are
association lists keeping insertion order; assignment to an existing key
overwrites its value in place.
-/

/-- Python dict assignment on an association list: overwrite in place,
append when the key is new. -/
def updAssoc (m : List (String × String)) (k v : String) : List (String × String) :=
  match m with
  | [] => [(k, v)]
  | (k2, v2) :: rest => if k2 = k then (k2, v) :: rest else (k2, v2) :: updAssoc rest k v

/-- Python dict lookup on an association list. -/
def lookupA (m : List (String × String)) (k : String) : Option String :=
  match m with
  | [] => none
  | (k2, v) :: rest => if k2 = k then some v else lookupA rest k

/-- Category-header cleanup of read_regex (line 123). -/
def cleanHeader (record : String) : String :=
  pyUpper (pyStrip [' ', '#', '\n'] record)

/-- Pattern cleanup of read_regex (line 125). -/
def cleanPat (record : String) : String :=
  pyLower (replaceAllS "\"" "" (replaceAllS "r\"" "" (pyStrip [' ', '\n'] record)))

/-- Line loop building dRegexCategory (lines 120-127): a header line updates
the current category, any other non-empty cleaned line is assigned to the
current category, silently overwriting an earlier assignment of the same
pattern. -/
def rrcGo : List String → String → List (String × String) → List (String × String)
  | [], _, acc => acc
  | record :: rest, category, acc =>
      if pyStartsWith record "#" then
        rrcGo rest (cleanHeader record) acc
      else
        let regex := cleanPat record
        if regex ≠ "" then rrcGo rest category (updAssoc acc regex category)
        else rrcGo rest category acc

/-- Embedding of the dRegexCategory construction of read_regex. -/
def read_regex_category (lines : List String) : List (String × String) :=
  rrcGo lines "" []

/-- Python dict assignment for the complex-rule table (overwrite in place,
append when new). -/
def updAssocL (m : List (String × List String)) (k : String) (v : List String) :
    List (String × List String) :=
  match m with
  | [] => [(k, v)]
  | (k2, v2) :: rest => if k2 = k then (k2, v) :: rest else (k2, v2) :: updAssocL rest k v

/-- Appending one entry to the list stored under a key; none models the
Python KeyError raised when the key was never initialised by a header. -/
def appendAssocL (m : List (String × List String)) (k : String) (e : String) :
    Option (List (String × List String)) :=
  match m with
  | [] => none
  | (k2, es) :: rest =>
      if k2 = k then some ((k2, es ++ [e]) :: rest)
      else
        match appendAssocL rest k e with
        | none => none
        | some r => some ((k2, es) :: r)

/-- Filter test of read_lexicon_complex (lines 353-358): some category of
the filter occurs as a slash-category-space substring of the lowercased
entry; the search runs over the whole entry string. -/
def keepEntry (filter : List String) (entry : String) : Bool :=
  filter.any (fun c => containsSub ("/" ++ pyLower c ++ " ").toList (pyLower entry).toList)

/-- Line loop of read_lexicon_complex (lines 328-360): skip blank lines,
headers reset the per-category list under the first placeholder of the
category, dash lines are skipped, and an entry is appended (subject to the
filter when active) to the list of the current placeholder. -/
def rlcGo (filter : List String) (withFilter : Bool) :
    List String → String → List (String × List String) →
      Option (List (String × List String))
  | [], _, tbl => some tbl
  | record :: rest, ph, tbl =>
      if pyStrip [' ', '\t', '\n'] record = "" then rlcGo filter withFilter rest ph tbl
      else if pyStartsWith record "#" then
        let ph2 := pyLower (pyUpper (pyStrip [' ', '#', '\n'] record)) ++ "1"
        rlcGo filter withFilter rest ph2 (updAssocL tbl ph2 [])
      else if pyStartsWith record "-" then rlcGo filter withFilter rest ph tbl
      else
        let entry := replaceAllS "\\\\" "\\" (pyStrip [' ', '\n'] record)
        if (if withFilter then keepEntry filter entry else true) then
          match appendAssocL tbl ph entry with
          | none => none
          | some tbl2 => rlcGo filter withFilter rest ph tbl2
        else rlcGo filter withFilter rest ph tbl

/-- Embedding of read_lexicon_complex. -/
def read_lexicon_complex (lines : List String) (filter : List String)
    (withFilter : Bool) : Option (List (String × List String)) :=
  rlcGo filter withFilter lines "" []

/-- Keep only the entries of each per-placeholder list that pass the
whole-entry filter test. -/
def filterTbl (filter : List String) (tbl : List (String × List String)) :
    List (String × List String) :=
  tbl.map (fun pr => (pr.1, pr.2.filter (keepEntry filter)))

/-- Modelled from the spec: complex-rule entries have the shape
SYNCAT followed by a braced SEMBODY (sections 4.1 and 6 of the
specification); the syntactic part of an entry is the text before the
opening brace, with surrounding spaces removed.  This definition follows
the claim's words and exists only to compare the claim against the code. -/
def syntacticPart (entry : String) : String :=
  pyStrip [' '] (String.mk (entry.toList.takeWhile (fun c => c ≠ '\x7b')))

/-- Keep test as the claim words it: the slash-category-space substring is
sought in the syntactic part only. -/
def claimKeep (filter : List String) (entry : String) : Bool :=
  filter.any (fun c =>
    containsSub ("/" ++ pyLower c ++ " ").toList (pyLower (syntacticPart entry)).toList)

/-!
C3: placeholder indices emitted during a parse.
-/

/-- Indices emitted for one category, in emission order. -/
def eventsFor (evs : List (String × Nat)) (cat : String) : List Nat :=
  (evs.filter (fun e => e.1 == cat)).map (fun e => e.2)

/-- Logical form with six top-level CLEARED terms, two more than the
default cap of five allows. -/
def c3LF : String :=
  "_CLEARED_(*a*); _CLEARED_(*b*); _CLEARED_(*c*); _CLEARED_(*d*); _CLEARED_(*e*); _CLEARED_(*f*)"

/-!
Embedding of make_unique_keys (logicalForm2JSON, lines 2132-2158).  The
pattern of its single finditer call -- a double quote, one or more letters
or whitespace characters, then quote and colon -- is simple enough to be
translated directly, so no oracle is needed here.
-/

/-- Whitespace class of the regex escape inside the key pattern. -/
def isKeySpace (c : Char) : Bool :=
  c = ' ' || c = '\t' || c = '\n' || c = '\r' || c = '\x0b' || c = '\x0c'

/-- Characters admitted inside a key by the pattern: letters (the
case-insensitive flag extends the lowercase class) and whitespace. -/
def jsonKeyChar (c : Char) : Bool := c.isAlpha || isKeySpace c

/-- Fuel-driven scan for the non-overlapping, leftmost matches of the key
pattern: at a double quote, the greedy run of key characters must be
non-empty and followed by quote and colon; scanning resumes after a match,
or one character later otherwise. -/
def findKeyMatchesF : Nat → List Char → List (List Char)
  | _, [] => []
  | 0, _ :: _ => []
  | Nat.succ fuel, c :: r =>
      if c = '"' then
        let run := r.takeWhile jsonKeyChar
        let after := r.drop run.length
        if run ≠ [] ∧ after.take 2 = ['"', ':'] then
          ('"' :: (run ++ ['"', ':'])) :: findKeyMatchesF fuel (after.drop 2)
        else findKeyMatchesF fuel r
      else findKeyMatchesF fuel r

/-- Matches of the key pattern over a whole string, leftmost first. -/
def findKeyMatches (s : String) : List String :=
  (findKeyMatchesF s.toList.length s.toList).map String.mk

/-- Counter key of one match (lines 2146-2149): the last space-separated
token of the match, with a double quote prepended when the split removed
it.  A composite key therefore shares its counter with its last word. -/
def bucketOf (m : String) : String :=
  let k := ((splitOnChar ' ' m.toList).map String.mk).getLastD m
  if pyStartsWith k "\"" then k else "\"" ++ k

/-- Counter loop of make_unique_keys: each match receives the next index of
its bucket, with the bucket map threaded left to right. -/
def assignIdsGo (cnt : String → Nat) : List String → List (String × Nat)
  | [] => []
  | m :: ms =>
      let b := bucketOf m
      let n := cnt b + 1
      (m, n) :: assignIdsGo (fun k => if k = b then n else cnt k) ms

/-- Indices assigned to the matches of one make_unique_keys run. -/
def assignIds (ms : List String) : List (String × Nat) :=
  assignIdsGo (fun _ => 0) ms

/-- Replace the first plain occurrence of pat (re.sub with count 1 on a
pattern without metacharacters). -/
def subFirstC (pat rep : List Char) : List Char → List Char
  | [] => []
  | c :: r =>
      if pat ≠ [] ∧ pat.isPrefixOf (c :: r) then
        rep ++ (c :: r).drop pat.length
      else c :: subFirstC pat rep r

/-- String wrapper of the first-occurrence replacement. -/
def subFirstS (pat rep s : String) : String :=
  String.mk (subFirstC pat.toList rep.toList s.toList)

/-- Replacement text for one match (line 2154): the match stripped of
quotes and colons, with the underscore index appended, re-quoted and
re-coloned. -/
def keyReplacement (m : String) (n : Nat) : String :=
  "\"" ++ pyStrip [':', '"'] m ++ "_" ++ toString n ++ "\":"

/-- Embedding of make_unique_keys: matches are collected on the original
string, indices assigned by the bucket counters, and the substitutions
applied one after the other on the evolving string, first occurrence each
(line 2156). -/
def make_unique_keys (s : String) : String :=
  (assignIds (findKeyMatches s)).foldl
    (fun acc pr => subFirstS pr.1 (keyReplacement pr.1 pr.2) acc) s

/-- Modelled from the spec: the claim describes the disambiguation counter
as an independent per-key counter in which a composite key produced by the
function-word merging counts as a single key of its own.  This variant
implements exactly those words -- the bucket is the whole match -- and
exists only to compare the claim against the code. -/
def specAssignIdsGo (cnt : String → Nat) : List String → List (String × Nat)
  | [] => []
  | m :: ms =>
      let n := cnt m + 1
      (m, n) :: specAssignIdsGo (fun k => if k = m then n else cnt k) ms

/-- Modelled from the spec: make_unique_keys as the claim words it, with an
independent counter per whole key. -/
def spec_make_unique_keys (s : String) : String :=
  (specAssignIdsGo (fun _ => 0) (findKeyMatches s)).foldl
    (fun acc pr => subFirstS pr.1 (keyReplacement pr.1 pr.2) acc) s

/-- JSON fragment with a plain key and a composite key sharing the same
last word. -/
def c8JSON : String := "\"x\":1,\"the x\":2"

/-- Stream of nine single-letter words for the C4 counterexample. -/
def c4Stream : String := "a b c d e f g h i"

/-- Concrete parser for the C5 counterexample: only the single word good
parses (with or without the context expansion). -/
def c5Parse : String → Option String :=
  fun s => if s = "good" ∨ s = "_context_ good" then some "_GOOD_(good1)" else none

/-!
C10: absence of the surrogate angle markers from every logical form.
-/

/-- A string carries no surrogate angle marker. -/
def angleFreeS (s : String) : Prop := '<' ∉ s.toList ∧ '>' ∉ s.toList

/-- C10 shape assumption on a match oracle: the replacement component of
every pair carries no angle marker.  In every real run this holds because
group strings are substrings of the pass input, itself already stripped of
the markers, and the character classes of the clean_LF patterns exclude
them. -/
def oracleAngleFree (o : String → List (String × String)) : Prop :=
  ∀ s pr, pr ∈ o s → '<' ∉ (pr.2 : String).toList ∧ '>' ∉ (pr.2 : String).toList

/-!
C2: bracket balance of every returned logical form.  The parser outputs and
the oracle matches are constrained by the balance facts their sources
guarantee: NLTK semantics strings are compositions of the balanced lexicon
terms, and the clean_LF match groups have the shapes of their patterns.
-/

/-- Counter-and-allocation loop of text2placeholders (lines 883-899): for
each applied match the per-category counter is incremented with no cap
test and the placeholder id of the category is allocated with the next
index.  Which pattern matches at each applied iteration is decided by the
regex battery over the resource files, abstracted as the sequence of
matched categories. -/
def allocEvents (counts : String → Nat) : List String → List (String × Nat)
  | [] => []
  | cat :: rest =>
      let n := counts cat + 1
      (cat, n) :: allocEvents (fun k => if k = cat then n else counts k) rest

/-- Allocation events of one text2placeholders call for a given
matched-category sequence: all counters start at zero (line 864). -/
def text2placeholders_events (cats : List String) : List (String × Nat) :=
  allocEvents (fun _ => 0) cats

/-- Decomposition of the fallback word stream into the accepted blocks
(each paired with the raw piece its window parsed to) and the failing
tail. -/
def blocksJoin : List (List String × String) → List String → List String
  | [], wfail => wfail
  | b :: bs, wfail => b.1 ++ blocksJoin bs wfail

/-- A run of the segmenting fallback: each block is accepted by the prefix
search exactly at its own length, the remainder after each accepted block
is nonempty, and on the final tail every prefix window down to one token
fails. -/
def BlocksAccepted (parse : String → Option String)
    (rep1 rep2 : List (String × String)) :
    List (List String × String) → List String → Prop
  | [], wfail =>
      (tryPrefixes parse rep1 rep2 wfail (min (wfail.length - 1) 7)).2 = none
  | b :: bs, wfail =>
      (tryPrefixes parse rep1 rep2 (blocksJoin (b :: bs) wfail)
          (min ((blocksJoin (b :: bs) wfail).length - 1) 7)).2
        = some (b.1.length - 1, b.2)
      ∧ b.1 ≠ [] ∧ joinSpace (blocksJoin bs wfail) ≠ ""
      ∧ BlocksAccepted parse rep1 rep2 bs wfail

/-- Token lists submitted to the parser along such a run: the prefix
windows tried over each accepted block's suffix, then the windows of the
failing tail; nothing after the failing tail's first window is ever
submitted. -/
def fallbackWindows (parse : String → Option String)
    (rep1 rep2 : List (String × String)) :
    List (List String × String) → List String → List (List String)
  | [], wfail => (tryPrefixes parse rep1 rep2 wfail (min (wfail.length - 1) 7)).1
  | b :: bs, wfail =>
      (tryPrefixes parse rep1 rep2 (blocksJoin (b :: bs) wfail)
          (min ((blocksJoin (b :: bs) wfail).length - 1) 7)).1
        ++ fallbackWindows parse rep1 rep2 bs wfail

theorem replaceAllCF_congr (pat rep : List Char) :
    ∀ (f1 : Nat), ∀ {f2 : Nat} {s : List Char}, s.length ≤ f1 → s.length ≤ f2 →
      replaceAllCF pat rep f1 s = replaceAllCF pat rep f2 s := by
  intro f1
  induction f1 with
  | zero =>
      intro f2 s h1 h2
      have hnil : s = [] := List.eq_nil_of_length_eq_zero (Nat.le_zero.mp h1)
      subst hnil
      cases f2 <;> rfl
  | succ f1 ih =>
      intro f2 s h1 h2
      cases s with
      | nil => cases f2 <;> rfl
      | cons c r =>
          cases f2 with
          | zero => simp at h2
          | succ f2 =>
              simp only [replaceAllCF]
              by_cases h : pat ≠ [] ∧ pat.isPrefixOf (c :: r)
              · rw [if_pos h, if_pos h]
                congr 1
                apply ih
                · simp only [List.length_drop]
                  simp only [List.length_cons] at h1
                  omega
                · simp only [List.length_drop]
                  simp only [List.length_cons] at h2
                  omega
              · rw [if_neg h, if_neg h]
                congr 1
                apply ih
                · simp only [List.length_cons] at h1; omega
                · simp only [List.length_cons] at h2; omega

theorem replaceAllC_nil (pat rep : List Char) : replaceAllC pat rep [] = [] := rfl

theorem replaceAllC_cons (pat rep : List Char) (c : Char) (r : List Char) :
    replaceAllC pat rep (c :: r) =
      if pat ≠ [] ∧ pat.isPrefixOf (c :: r) then
        rep ++ replaceAllC pat rep (r.drop (pat.length - 1))
      else
        c :: replaceAllC pat rep r := by
  show replaceAllCF pat rep (c :: r).length (c :: r) = _
  simp only [List.length_cons, replaceAllCF]
  by_cases h : pat ≠ [] ∧ pat.isPrefixOf (c :: r)
  · rw [if_pos h, if_pos h]
    congr 1
    apply replaceAllCF_congr
    · simp only [List.length_drop]; omega
    · exact le_refl _
  · rw [if_neg h, if_neg h]
    rfl

theorem Replaced.rfl (pat rep : List Char) : ∀ l, Replaced pat rep l l := by
  intro l
  induction l with
  | nil => exact Replaced.nil
  | cons c l ih => exact Replaced.cons c ih

theorem replaceAllC_replaced_aux (pat rep : List Char) :
    ∀ (n : Nat) (s : List Char), s.length ≤ n →
      Replaced pat rep s (replaceAllC pat rep s) := by
  intro n
  induction n with
  | zero =>
      intro s hs
      have hnil : s = [] := List.eq_nil_of_length_eq_zero (Nat.le_zero.mp hs)
      subst hnil
      rw [replaceAllC_nil]
      exact Replaced.nil
  | succ n ih =>
      intro s hs
      cases s with
      | nil => rw [replaceAllC_nil]; exact Replaced.nil
      | cons c r =>
          by_cases h : pat ≠ [] ∧ pat.isPrefixOf (c :: r)
          · rw [replaceAllC_cons, if_pos h]
            obtain ⟨hne, hp⟩ := h
            have hlen : 1 ≤ pat.length := List.length_pos.mpr hne
            have hpre : pat <+: (c :: r) := List.isPrefixOf_iff_prefix.mp hp
            obtain ⟨t, ht⟩ := hpre
            have h2 : (c :: r).drop pat.length = t := by
              rw [← ht, List.drop_append_eq_append_drop]
              simp
            have hdrop : r.drop (pat.length - 1) = t := by
              rw [show pat.length = pat.length - 1 + 1 from by omega] at h2
              rwa [List.drop_succ_cons] at h2
            rw [hdrop, ← ht]
            apply Replaced.subst
            apply ih
            have h3 : t.length ≤ r.length := by
              rw [← hdrop]
              simp only [List.length_drop]
              omega
            have h4 : r.length + 1 ≤ n + 1 := by simpa using hs
            omega
          · rw [replaceAllC_cons, if_neg h]
            apply Replaced.cons
            apply ih
            have h4 : r.length + 1 ≤ n + 1 := by simpa using hs
            omega

theorem replaceAllC_replaced (pat rep s : List Char) :
    Replaced pat rep s (replaceAllC pat rep s) :=
  replaceAllC_replaced_aux pat rep s.length s (le_refl _)

theorem Replaced.mem_chars {pat rep s t : List Char} (h : Replaced pat rep s t)
    {c : Char} (hc : c ∈ t) : c ∈ s ∨ c ∈ rep := by
  induction h with
  | nil => simp at hc
  | cons d h ih =>
      rcases List.mem_cons.mp hc with h1 | h1
      · exact Or.inl (h1 ▸ List.mem_cons_self d _)
      · rcases ih h1 with h2 | h2
        · exact Or.inl (List.mem_cons_of_mem d h2)
        · exact Or.inr h2
  | subst h ih =>
      rcases List.mem_append.mp hc with h1 | h1
      · exact Or.inr h1
      · rcases ih h1 with h2 | h2
        · exact Or.inl (List.mem_append_right pat h2)
        · exact Or.inr h2

theorem Replaced.notMem {pat rep s t : List Char} (h : Replaced pat rep s t)
    {c : Char} (hs : c ∉ s) (hr : c ∉ rep) : c ∉ t := by
  intro hc
  rcases h.mem_chars hc with h1 | h1
  · exact hs h1
  · exact hr h1

theorem splitOnChar_ne_nil (sep : Char) (l : List Char) : splitOnChar sep l ≠ [] := by
  induction l with
  | nil => simp [splitOnChar]
  | cons c l ih =>
      by_cases h : c = sep
      · simp [splitOnChar, h]
      · simp only [splitOnChar, h, if_false]
        cases hc : splitOnChar sep l with
        | nil => simp
        | cons a b => simp

theorem iterF_succ_right (f : String → String) (n : Nat) (x : String) :
    iterF f (n + 1) x = f (iterF f n x) := by
  induction n generalizing x with
  | zero => rfl
  | succ n ih =>
      show iterF f (n + 1) (f x) = f (iterF f (n + 1) x)
      rw [ih (f x)]
      rfl

theorem stepLoop_fix (f : String → String) :
    ∀ (m : Nat) (lf : String), f (iterF f m lf) = iterF f m lf →
      stepLoop f lf (m + 1) = stepLoop f lf m := by
  intro m
  induction m with
  | zero =>
      intro lf hfix
      have h : f lf = lf := hfix
      simp only [stepLoop]
      rw [if_pos h]
      exact h
  | succ m ih =>
      intro lf hfix
      show (let lf2 := f lf; if lf2 = lf then lf2 else stepLoop f lf2 (m + 1))
          = (let lf2 := f lf; if lf2 = lf then lf2 else stepLoop f lf2 m)
      by_cases h : f lf = lf
      · simp only [h, if_pos]
      · simp only [if_neg h]
        exact ih (f lf) hfix

/-- C1: the controller of parsing halts as soon as a stage returns the same
logical form as the previous stage: whenever stage k would reproduce stage
k-1 for k at least 1, running with number_of_steps = k+1 returns exactly the
result of running with number_of_steps = k. -/
theorem parsing_stops_at_fixed_point
    (parse0 parseN : String → Option String) (mk0 : String → PCIn)
    (ctxOr o2 o3 o4 : String → List (String × String))
    (command : String) (k : Nat) (hk : 1 ≤ k)
    (hfix : stageLF parse0 parseN mk0 ctxOr o2 o3 o4 command k
          = stageLF parse0 parseN mk0 ctxOr o2 o3 o4 command (k - 1)) :
    parsingModel parse0 parseN mk0 ctxOr o2 o3 o4 command (k + 1)
      = parsingModel parse0 parseN mk0 ctxOr o2 o3 o4 command k := by
  obtain ⟨m, rfl⟩ : ∃ m, k = m + 1 := ⟨k - 1, by omega⟩
  have hm : m + 1 - 1 = m := by omega
  rw [hm] at hfix
  unfold stageLF at hfix
  rw [iterF_succ_right] at hfix
  unfold parsingModel pipelineLoop
  by_cases h0 : stage0Fn parse0 mk0 ctxOr o2 o3 o4 command = ""
  · simp only [h0, if_pos]
  · simp only [h0, if_neg, ite_false]
    congr 1
    exact stepLoop_fix _ m _ hfix

/-- Witness for C1 at a concrete instantiation: a parser with no parses
makes every stage return the empty logical form, so stage 1 reproduces
stage 0 and the two-step run equals the one-step run. -/
theorem parsing_stops_at_fixed_point_witness :
    (1 : Nat) ≤ 1 ∧
    parsingModel alwaysNoneParse alwaysNoneParse emptyMk0
        noOracle noOracle noOracle noOracle "squawk 5263" 2
      = parsingModel alwaysNoneParse alwaysNoneParse emptyMk0
        noOracle noOracle noOracle noOracle "squawk 5263" 1 :=
  ⟨le_refl 1,
   parsing_stops_at_fixed_point alwaysNoneParse alwaysNoneParse emptyMk0
     noOracle noOracle noOracle noOracle "squawk 5263" 1 (le_refl 1) (by decide)⟩

/-- C9: parsing is total only for a positive step budget: with
number_of_steps = 0 the loop body never assigns the logical form and the
final return fails (none); for every number_of_steps at least 1 a string is
returned. -/
theorem parsing_requires_positive_steps
    (parse0 parseN : String → Option String) (mk0 : String → PCIn)
    (ctxOr o2 o3 o4 : String → List (String × String)) (command : String) :
    parsingModel parse0 parseN mk0 ctxOr o2 o3 o4 command 0 = none ∧
    ∀ n : Nat, 1 ≤ n →
      (parsingModel parse0 parseN mk0 ctxOr o2 o3 o4 command n).isSome = true := by
  constructor
  · rfl
  · intro n hn
    obtain ⟨m, rfl⟩ : ∃ m, n = m + 1 := ⟨n - 1, by omega⟩
    unfold parsingModel pipelineLoop
    by_cases h : stage0Fn parse0 mk0 ctxOr o2 o3 o4 command = "" <;> simp [h]

/-- Witness for C9 at a concrete instantiation. -/
theorem parsing_requires_positive_steps_witness :
    parsingModel alwaysNoneParse alwaysNoneParse emptyMk0
        noOracle noOracle noOracle noOracle "roger" 0 = none ∧
    (parsingModel alwaysNoneParse alwaysNoneParse emptyMk0
        noOracle noOracle noOracle noOracle "roger" 1).isSome = true :=
  ⟨(parsing_requires_positive_steps alwaysNoneParse alwaysNoneParse emptyMk0
      noOracle noOracle noOracle noOracle "roger").1,
   (parsing_requires_positive_steps alwaysNoneParse alwaysNoneParse emptyMk0
      noOracle noOracle noOracle noOracle "roger").2 1 (le_refl 1)⟩

theorem lookupA_updAssoc (m : List (String × String)) (k v : String) :
    lookupA (updAssoc m k v) k = some v := by
  induction m with
  | nil => simp [updAssoc, lookupA]
  | cons p rest ih =>
      obtain ⟨k2, v2⟩ := p
      by_cases h : k2 = k
      · simp [updAssoc, lookupA, h]
      · simp [updAssoc, lookupA, h, ih]

theorem rrcGo_append (l2 : List String) :
    ∀ (l1 : List String) (category : String) (acc : List (String × String)),
      ∃ cat2 acc2, rrcGo (l1 ++ l2) category acc = rrcGo l2 cat2 acc2 := by
  intro l1
  induction l1 with
  | nil => intro category acc; exact ⟨category, acc, rfl⟩
  | cons record rest ih =>
      intro category acc
      rw [List.cons_append]
      by_cases h : pyStartsWith record "#"
      · simp only [rrcGo, h, if_pos]
        exact ih (cleanHeader record) acc
      · by_cases h2 : cleanPat record ≠ ""
        · simp only [rrcGo, h, Bool.false_eq_true, if_false]
          rw [if_pos h2]
          exact ih category (updAssoc acc (cleanPat record) category)
        · simp only [rrcGo, h, Bool.false_eq_true, if_false]
          rw [if_neg h2]
          exact ih category acc

/-- C7 counterexample: the same pattern under two category headers is loaded
without any error; the loader returns normally, silently keeping the second
category for the duplicate pattern. -/
theorem read_regex_duplicate_counterexample :
    read_regex_category ["#A", "r\"x\"", "#B", "r\"x\""] = [("x", "B")] := by
  decide

/-- C7 amended: read_regex never raises on a duplicate pattern; the category
recorded for a pattern is the one of its last occurrence, so a later header
silently overwrites the earlier assignment. -/
theorem read_regex_duplicate_last_wins
    (lines : List String) (h0 p0 : String)
    (hh : pyStartsWith h0 "#" = true) (hnp : pyStartsWith p0 "#" = false)
    (hpat : cleanPat p0 ≠ "") :
    lookupA (read_regex_category (lines ++ [h0, p0])) (cleanPat p0)
      = some (cleanHeader h0) := by
  unfold read_regex_category
  obtain ⟨cat2, acc2, heq⟩ := rrcGo_append [h0, p0] lines "" []
  rw [heq]
  simp only [rrcGo, hh, hnp, Bool.false_eq_true, if_false, ite_true]
  rw [if_pos hpat]
  exact lookupA_updAssoc acc2 (cleanPat p0) (cleanHeader h0)

/-- Witness for the C7 amended theorem at a concrete duplicate. -/
theorem read_regex_duplicate_last_wins_witness :
    lookupA (read_regex_category (["#A", "r\"x\""] ++ ["#B", "r\"x\""])) (cleanPat "r\"x\"")
      = some (cleanHeader "#B") :=
  read_regex_duplicate_last_wins ["#A", "r\"x\""] "#B" "r\"x\""
    (by decide) (by decide) (by decide)

theorem filterTbl_updAssocL (filter : List String)
    (m : List (String × List String)) (k : String) :
    filterTbl filter (updAssocL m k []) = updAssocL (filterTbl filter m) k [] := by
  induction m with
  | nil => simp [updAssocL, filterTbl]
  | cons p rest ih =>
      obtain ⟨k2, v2⟩ := p
      by_cases h : k2 = k
      · simp [updAssocL, filterTbl, h]
      · simp only [updAssocL, filterTbl, List.map_cons, h, if_false, ite_false]
        have h2 := ih
        simp only [filterTbl] at h2
        rw [h2]

theorem appendAssocL_filterTbl_keep (filter : List String) (e : String)
    (hk : keepEntry filter e = true) :
    ∀ (m m2 : List (String × List String)) (k : String),
      appendAssocL m k e = some m2 →
      appendAssocL (filterTbl filter m) k e = some (filterTbl filter m2) := by
  intro m
  induction m with
  | nil => intro m2 k h; simp [appendAssocL] at h
  | cons p rest ih =>
      intro m2 k h
      obtain ⟨k2, es⟩ := p
      by_cases hkk : k2 = k
      · simp only [appendAssocL, hkk, if_pos, Option.some.injEq] at h
        subst h
        simp only [filterTbl, List.map_cons, appendAssocL, hkk, if_pos, Option.some.injEq]
        simp [List.filter_append, hk]
      · simp only [appendAssocL, hkk, if_false, ite_false] at h
        cases hres : appendAssocL rest k e with
        | none => rw [hres] at h; exact absurd h (by simp)
        | some r =>
            rw [hres] at h
            simp only [Option.some.injEq] at h
            subst h
            simp only [filterTbl, List.map_cons, appendAssocL, hkk, if_false, ite_false]
            have := ih r k hres
            unfold filterTbl at this
            rw [this]

theorem appendAssocL_filterTbl_drop (filter : List String) (e : String)
    (hk : keepEntry filter e = false) :
    ∀ (m m2 : List (String × List String)) (k : String),
      appendAssocL m k e = some m2 →
      filterTbl filter m2 = filterTbl filter m := by
  intro m
  induction m with
  | nil => intro m2 k h; simp [appendAssocL] at h
  | cons p rest ih =>
      intro m2 k h
      obtain ⟨k2, es⟩ := p
      by_cases hkk : k2 = k
      · subst hkk
        simp only [appendAssocL, if_pos, Option.some.injEq, ite_true] at h
        subst h
        simp [filterTbl, List.filter_append, hk]
      · simp only [appendAssocL, hkk, if_false, ite_false] at h
        cases hres : appendAssocL rest k e with
        | none => rw [hres] at h; exact absurd h (by simp)
        | some r =>
            rw [hres] at h
            simp only [Option.some.injEq] at h
            subst h
            simp only [filterTbl, List.map_cons, List.cons.injEq, true_and]
            have := ih r k hres
            unfold filterTbl at this
            exact this

theorem rlcGo_filter_rel (filter : List String) :
    ∀ (lines : List String) (ph : String) (tblU : List (String × List String))
      (tbl : List (String × List String)),
      rlcGo filter false lines ph tblU = some tbl →
      rlcGo filter true lines ph (filterTbl filter tblU) = some (filterTbl filter tbl) := by
  intro lines
  induction lines with
  | nil =>
      intro ph tblU tbl h
      simp only [rlcGo, Option.some.injEq] at h
      subst h
      rfl
  | cons record rest ih =>
      intro ph tblU tbl h
      by_cases hb : pyStrip [' ', '\t', '\n'] record = ""
      · simp only [rlcGo, hb, if_pos, ite_true] at h ⊢
        exact ih ph tblU tbl h
      · by_cases hh : pyStartsWith record "#"
        · simp only [rlcGo, hb, ite_false, hh, if_pos, ite_true] at h ⊢
          rw [← filterTbl_updAssocL]
          exact ih _ _ tbl h
        · by_cases hd : pyStartsWith record "-"
          · simp only [rlcGo, hb, ite_false, hh, Bool.false_eq_true, if_false, hd,
              if_pos, ite_true] at h ⊢
            exact ih ph tblU tbl h
          · simp only [rlcGo, hb, ite_false, hh, Bool.false_eq_true, if_false, hd,
              ite_true] at h ⊢
            cases hres : appendAssocL tblU ph (replaceAllS "\\\\" "\\" (pyStrip [' ', '\n'] record)) with
            | none => rw [hres] at h; exact absurd h (by simp)
            | some tblU2 =>
                rw [hres] at h
                by_cases hk : keepEntry filter (replaceAllS "\\\\" "\\" (pyStrip [' ', '\n'] record)) = true
                · simp only [hk, ite_true]
                  rw [appendAssocL_filterTbl_keep filter _ hk tblU tblU2 ph hres]
                  exact ih ph tblU2 tbl h
                · have hk2 : keepEntry filter (replaceAllS "\\\\" "\\" (pyStrip [' ', '\n'] record)) = false := by
                    revert hk
                    cases keepEntry filter (replaceAllS "\\\\" "\\" (pyStrip [' ', '\n'] record)) <;> simp
                  simp only [hk2, Bool.false_eq_true, ite_false]
                  rw [← appendAssocL_filterTbl_drop filter _ hk2 tblU tblU2 ph hres]
                  exact ih ph tblU2 tbl h

/-- C6 counterexample: with the filter CALLSIGN active, an entry whose
syntactic part is plain NP but whose semantic body mentions slash-callsign
followed by a space is kept by the loader, although the claim, reading the
test as a condition on the syntactic part, says it must be dropped. -/
theorem read_lexicon_filter_counterexample :
    read_lexicon_complex ["#FOO", "NP \x7b/callsign x\x7d"] ["CALLSIGN"] true
      = some [("foo1", ["NP \x7b/callsign x\x7d"])] ∧
    claimKeep ["CALLSIGN"] "NP \x7b/callsign x\x7d" = false := by
  constructor
  · decide
  · decide

/-- C6 amended: with the filter active, an entry is kept if and only if the
whole entry (syntactic part and semantic body together), lowercased,
contains the slash-category-space substring for some filter category:
the filtered run returns exactly the unfiltered table with every
per-placeholder list filtered by that whole-entry test. -/
theorem read_lexicon_filter_whole_entry
    (lines : List String) (filter : List String)
    (tbl : List (String × List String))
    (h : read_lexicon_complex lines filter false = some tbl) :
    read_lexicon_complex lines filter true = some (filterTbl filter tbl) := by
  unfold read_lexicon_complex at h ⊢
  have := rlcGo_filter_rel filter lines "" [] tbl h
  simpa [filterTbl] using this

/-- Witness for the C6 amended theorem on a concrete resource. -/
theorem read_lexicon_filter_whole_entry_witness :
    read_lexicon_complex ["#FOO", "NP \x7b/callsign x\x7d", "S \x7bbody\x7d"]
        ["CALLSIGN"] true
      = some (filterTbl ["CALLSIGN"]
          [("foo1", ["NP \x7b/callsign x\x7d", "S \x7bbody\x7d"])]) :=
  read_lexicon_filter_whole_entry
    ["#FOO", "NP \x7b/callsign x\x7d", "S \x7bbody\x7d"] ["CALLSIGN"]
    [("foo1", ["NP \x7b/callsign x\x7d", "S \x7bbody\x7d"])] (by decide)

/-- C3 counterexample: LF2placeholders allocates placeholder indices with no
cap check, so a logical form with six CLEARED terms emits the placeholder
cleared6 into the stream although the placeholder-number table caps CLEARED
at the default of five. -/
theorem LF2placeholders_exceeds_cap :
    ("cleared", 6) ∈ (LF2placeholders c3LF).events ∧
    containsSub "cleared6".toList (LF2placeholders c3LF).stream.toList = true ∧
    placeholderNumber "CLEARED" = 5 := by
  refine ⟨by decide, by decide, by decide⟩

theorem lf2phGo_events (cat : String) :
    ∀ (items : List String) (counts : String → Nat) (count : Nat),
      eventsFor (lf2phGo counts count items).events cat
        = List.range' (counts cat + 1)
            (eventsFor (lf2phGo counts count items).events cat).length := by
  intro items
  induction items with
  | nil => intro counts count; rfl
  | cons it0 rest ih =>
      intro counts count
      cases hcat : lf2phItemCat it0 with
      | none =>
          simp only [lf2phGo, hcat]
          exact ih counts count
      | some cat0 =>
          simp only [lf2phGo, hcat]
          by_cases hc : cat0 = cat
          · subst hc
            have h2 := ih (fun k => if k = cat0 then counts cat0 + 1 else counts k) (count + 1)
            rw [show (if cat0 = cat0 then counts cat0 + 1 else counts cat0) = counts cat0 + 1
                  from if_pos rfl] at h2
            simp only [eventsFor, List.filter_cons, beq_self_eq_true, ite_true,
              List.map_cons, List.length_cons]
            simp only [eventsFor] at h2
            rw [h2, List.length_range']
            rfl
          · have hbeq : (cat0 == cat) = false := beq_eq_false_iff_ne.mpr hc
            have h2 := ih (fun k => if k = cat0 then counts cat0 + 1 else counts k) (count + 1)
            rw [show (if cat = cat0 then counts cat0 + 1 else counts cat) = counts cat
                  from if_neg (fun hx => hc hx.symm)] at h2
            simp only [eventsFor, List.filter_cons, hbeq, Bool.false_eq_true, ite_false]
            simp only [eventsFor] at h2
            exact h2

theorem allocEvents_events (cat : String) :
    ∀ (cats : List String) (counts : String → Nat),
      eventsFor (allocEvents counts cats) cat
        = List.range' (counts cat + 1)
            (eventsFor (allocEvents counts cats) cat).length := by
  intro cats
  induction cats with
  | nil => intro counts; rfl
  | cons cat0 rest ih =>
      intro counts
      simp only [allocEvents]
      by_cases hc : cat0 = cat
      · subst hc
        have h2 := ih (fun k => if k = cat0 then counts cat0 + 1 else counts k)
        rw [show (if cat0 = cat0 then counts cat0 + 1 else counts cat0) = counts cat0 + 1
              from if_pos rfl] at h2
        simp only [eventsFor, List.filter_cons, beq_self_eq_true, ite_true,
          List.map_cons, List.length_cons]
        simp only [eventsFor] at h2
        rw [h2, List.length_range']
        rfl
      · have hbeq : (cat0 == cat) = false := beq_eq_false_iff_ne.mpr hc
        have h2 := ih (fun k => if k = cat0 then counts cat0 + 1 else counts k)
        rw [show (if cat = cat0 then counts cat0 + 1 else counts cat) = counts cat
              from if_neg (fun hx => hc hx.symm)] at h2
        simp only [eventsFor, List.filter_cons, hbeq, Bool.false_eq_true, ite_false]
        simp only [eventsFor] at h2
        exact h2

/-- C3 amended: during a single parse, both placeholder emitters number the
placeholders of each category consecutively 1, 2, ..., k in emission order,
a prefix of the unbounded index sequence - text2placeholders at step 0
(for every matched-category sequence the regex battery can produce, since
lines 889-899 increment the per-category counter with no cap test) and
LF2placeholders at the later steps (lines 1122-1127); neither emitter
checks the placeholder-number cap, so indices greater than cap(C) are
emitted whenever the occurrences of C exceed cap(C). -/
theorem placeholder_indices_consecutive :
    (∀ (cats : List String) (cat : String),
        eventsFor (text2placeholders_events cats) cat
          = List.range' 1 (eventsFor (text2placeholders_events cats) cat).length) ∧
    (∀ (LF : String) (cat : String),
        eventsFor (LF2placeholders LF).events cat
          = List.range' 1 (eventsFor (LF2placeholders LF).events cat).length) := by
  constructor
  · intro cats cat
    unfold text2placeholders_events
    exact allocEvents_events cat cats (fun _ => 0)
  · intro LF cat
    unfold LF2placeholders
    exact lf2phGo_events cat _ (fun _ => 0) 0

/-- C8 counterexample: the code keys the counter by the last
space-separated token, so the composite key the-x draws the index 2 from
the bucket of the plain key x, while the claim's independent per-key
counter would give it index 1; the two disagree on a concrete input. -/
theorem make_unique_keys_counterexample :
    make_unique_keys c8JSON = "\"x_1\":1,\"the x_2\":2" ∧
    spec_make_unique_keys c8JSON = "\"x_1\":1,\"the x_1\":2" ∧
    make_unique_keys c8JSON ≠ spec_make_unique_keys c8JSON := by
  refine ⟨by decide, by decide, by decide⟩

theorem assignIdsGo_index (m : String) :
    ∀ (pre : List String) (post : List String) (cnt : String → Nat),
      (assignIdsGo cnt (pre ++ m :: post)).get? pre.length
        = some (m, cnt (bucketOf m)
            + (pre.filter (fun m2 => bucketOf m2 == bucketOf m)).length + 1) := by
  intro pre
  induction pre with
  | nil =>
      intro post cnt
      simp [assignIdsGo]
  | cons p pre ih =>
      intro post cnt
      rw [List.cons_append]
      simp only [assignIdsGo, List.length_cons, List.get?_cons_succ]
      rw [ih post]
      by_cases hb : bucketOf p = bucketOf m
      · have hbeq : (bucketOf p == bucketOf m) = true := beq_iff_eq.mpr hb
        simp only [List.filter_cons, hbeq, ite_true, List.length_cons]
        rw [show (if bucketOf m = bucketOf p then cnt (bucketOf p) + 1 else cnt (bucketOf m))
              = cnt (bucketOf m) + 1 from by rw [if_pos hb.symm, hb]]
        congr 2
        omega
      · have hbeq : (bucketOf p == bucketOf m) = false := beq_eq_false_iff_ne.mpr hb
        simp only [List.filter_cons, hbeq, Bool.false_eq_true, ite_false]
        rw [show (if bucketOf m = bucketOf p then cnt (bucketOf p) + 1 else cnt (bucketOf m))
              = cnt (bucketOf m) from if_neg (fun hx => hb hx.symm)]

/-- C8 amended: the key-disambiguation step walks the matches left to
right and rewrites the i-th matched key to carry the next index of the
counter keyed by the key's last space-separated token: the index equals one
plus the number of earlier matches sharing that last token, so a composite
key continues the numbering of its final word rather than owning an
independent counter. -/
theorem make_unique_keys_bucket_counter (pre : List String) (m : String)
    (post : List String) :
    (assignIds (pre ++ m :: post)).get? pre.length
      = some (m, (pre.filter (fun m2 => bucketOf m2 == bucketOf m)).length + 1) := by
  unfold assignIds
  rw [assignIdsGo_index m pre post]
  simp

/-!
C4 and C5: the segmenting fallback of parse_command.
-/

theorem tryPrefixes_subs_length (parse : String → Option String)
    (rep1 rep2 : List (String × String)) (words : List String) (hw : words ≠ []) :
    ∀ (j : Nat), ∀ toks ∈ (tryPrefixes parse rep1 rep2 words j).1,
      1 ≤ toks.length ∧ toks.length ≤ j + 1 := by
  intro j
  induction j with
  | zero =>
      intro toks htoks
      have hmem : toks = words.take 1 := by
        simp only [tryPrefixes] at htoks
        by_cases hr : parse_segment parse (joinSpace (words.take 1)) 1 rep1 rep2 ≠ ""
        · rw [if_pos hr] at htoks
          simpa using htoks
        · rw [if_neg hr] at htoks
          simpa using htoks
      subst hmem
      rw [List.length_take]
      cases words with
      | nil => exact absurd rfl hw
      | cons w ws => constructor <;> simp
  | succ j2 ih =>
      intro toks htoks
      simp only [tryPrefixes] at htoks
      by_cases hr : parse_segment parse (joinSpace (words.take (j2 + 2))) 1 rep1 rep2 ≠ ""
      · rw [if_pos hr] at htoks
        have hmem : toks = words.take (j2 + 2) := by simpa using htoks
        subst hmem
        rw [List.length_take]
        cases words with
        | nil => exact absurd rfl hw
        | cons w ws => constructor <;> simp
      · rw [if_neg hr] at htoks
        rcases List.mem_cons.mp htoks with h1 | h1
        · subst h1
          rw [List.length_take]
          cases words with
          | nil => exact absurd rfl hw
          | cons w ws => constructor <;> simp
        · have := ih toks h1
          omega

theorem fallbackGoF_subs_length (parse : String → Option String)
    (rep1 rep2 : List (String × String))
    (ctxOr o2 o3 o4 : String → List (String × String)) (step : Nat) :
    ∀ (fuel : Nat) (words : List String), words ≠ [] →
      ∀ toks ∈ (fallbackGoF parse rep1 rep2 ctxOr o2 o3 o4 step fuel words).1,
        1 ≤ toks.length ∧ toks.length ≤ 8 := by
  intro fuel
  induction fuel with
  | zero => intro words hw toks htoks; simp [fallbackGoF] at htoks
  | succ fuel ih =>
      intro words hw toks htoks
      have hj0 : min (words.length - 1) 7 + 1 ≤ 8 := by
        have := min_le_right (words.length - 1) 7
        omega
      simp only [fallbackGoF] at htoks
      split at htoks
      · have h3 : toks ∈ (tryPrefixes parse rep1 rep2 words (min (words.length - 1) 7)).1 :=
          htoks
        have := tryPrefixes_subs_length parse rep1 rep2 words hw
          (min (words.length - 1) 7) toks h3
        omega
      · rename_i jlf heq
        by_cases hrest : joinSpace (words.drop (jlf.1 + 1)) = ""
        · rw [if_pos hrest] at htoks
          have h3 : toks ∈ (tryPrefixes parse rep1 rep2 words (min (words.length - 1) 7)).1 :=
            htoks
          have := tryPrefixes_subs_length parse rep1 rep2 words hw
            (min (words.length - 1) 7) toks h3
          omega
        · rw [if_neg hrest] at htoks
          have h3 : toks ∈ (tryPrefixes parse rep1 rep2 words (min (words.length - 1) 7)).1
              ++ (fallbackGoF parse rep1 rep2 ctxOr o2 o3 o4 step fuel
                    (words.drop (jlf.1 + 1))).1 := htoks
          rcases List.mem_append.mp h3 with h1 | h1
          · have := tryPrefixes_subs_length parse rep1 rep2 words hw
              (min (words.length - 1) 7) toks h1
            omega
          · have hne : words.drop (jlf.1 + 1) ≠ [] := by
              intro hr
              rw [hr] at hrest
              exact hrest rfl
            exact ih (words.drop (jlf.1 + 1)) hne toks h1

/-- C4 counterexample: with a parser that never succeeds, the segmenting
fallback on a nine-word stream submits a prefix of eight tokens to the
parser, because the skip guard compares the index j, not the prefix length,
against max_segment_length = 7; the claim's bound of seven tokens is
violated. -/
theorem fallback_submits_8_token_prefix :
    ["a", "b", "c", "d", "e", "f", "g", "h"] ∈
      (parse_command_model alwaysNoneParse noOracle noOracle noOracle noOracle 0
        ⟨c4Stream, [], []⟩).subs ∧
    (["a", "b", "c", "d", "e", "f", "g", "h"] : List String).length = 8 := by
  refine ⟨by decide, by decide⟩

/-- C4 amended: every prefix submitted to the parser by the segmenting
fallback has at least one and at most EIGHT tokens: the driver tries
prefixes of length min(length of the remaining stream, 8) down to 1 and
accepts the first that parses, consuming it from the stream. -/
theorem fallback_segments_at_most_8 (parse : String → Option String)
    (ctxOr o2 o3 o4 : String → List (String × String)) (step : Nat) (inp : PCIn) :
    ∀ toks ∈ (parse_command_model parse ctxOr o2 o3 o4 step inp).subs,
      1 ≤ toks.length ∧ toks.length ≤ 8 := by
  intro toks htoks
  simp only [parse_command_model] at htoks
  by_cases h1 : parse_segment parse inp.stream 1 inp.rep1 inp.rep2 = ""
  · simp only [h1, ne_eq, not_true_eq_false, ite_false] at htoks
    by_cases h2 : inp.stream = ""
    · simp only [h2, ite_true] at htoks
      have h3 : toks ∈ ([] : List (List String)) := htoks
      simp at h3
    · simp only [h2, ite_false] at htoks
      have hne : splitSpace inp.stream ≠ [] := by
        unfold splitSpace
        intro hx
        exact splitOnChar_ne_nil ' ' inp.stream.toList (List.map_eq_nil.mp hx)
      have h3 : toks ∈ (fallbackGo parse inp.rep1 inp.rep2 ctxOr o2 o3 o4 step
          (splitSpace inp.stream)).1 := htoks
      exact fallbackGoF_subs_length parse inp.rep1 inp.rep2 ctxOr o2 o3 o4
        step (splitSpace inp.stream).length (splitSpace inp.stream) hne toks h3
  · simp only [ne_eq, h1, not_false_eq_true, ite_true] at htoks
    have h3 : toks ∈ ([] : List (List String)) := htoks
    simp at h3

/-- Witness for the C4 amended theorem on the concrete eight-token
submission. -/
theorem fallback_segments_at_most_8_witness :
    1 ≤ (["a", "b", "c", "d", "e", "f", "g", "h"] : List String).length ∧
    (["a", "b", "c", "d", "e", "f", "g", "h"] : List String).length ≤ 8 :=
  fallback_segments_at_most_8 alwaysNoneParse noOracle noOracle noOracle noOracle 0
    ⟨c4Stream, [], []⟩ ["a", "b", "c", "d", "e", "f", "g", "h"] (by decide)

/-- C5 counterexample: on the stream bad-good, every prefix starting at bad
fails down to the one-token prefix, so the code discards the WHOLE
remaining stream: the parseable word good is never submitted and the final
logical form is empty, while the claim says the rest of the stream is still
processed. -/
theorem fallback_discards_rest_counterexample :
    (parse_command_model c5Parse noOracle noOracle noOracle noOracle 0
        ⟨"bad good", [], []⟩).lf = "" ∧
    c5Parse "good" = some "_GOOD_(good1)" ∧
    ¬ (["good"] ∈ (parse_command_model c5Parse noOracle noOracle noOracle noOracle 0
        ⟨"bad good", [], []⟩).subs) := by
  refine ⟨by decide, by decide, by decide⟩

theorem replaceAllS_empty (pat rep : String) : replaceAllS pat rep "" = "" := rfl

theorem splitSpace_ne_nil (s : String) : splitSpace s ≠ [] := by
  unfold splitSpace
  intro hx
  exact splitOnChar_ne_nil ' ' s.toList (List.map_eq_nil.mp hx)

theorem BlocksAccepted_tail_ne (parse : String → Option String)
    (rep1 rep2 : List (String × String)) :
    ∀ (blocks : List (List String × String)) (wfail : List String),
      blocks ≠ [] → BlocksAccepted parse rep1 rep2 blocks wfail → wfail ≠ [] := by
  intro blocks
  induction blocks with
  | nil => intro wfail h _; exact absurd rfl h
  | cons b bs ih =>
      intro wfail _ hacc
      obtain ⟨_, _, hrest, hacc2⟩ := hacc
      cases hbs : bs with
      | nil =>
          intro hw
          subst hw
          apply hrest
          rw [hbs]
          rfl
      | cons b2 bs2 =>
          exact ih wfail (by rw [hbs]; exact List.cons_ne_nil b2 bs2) hacc2

theorem BlocksAccepted_length (parse : String → Option String)
    (rep1 rep2 : List (String × String)) :
    ∀ (blocks : List (List String × String)) (wfail : List String),
      BlocksAccepted parse rep1 rep2 blocks wfail → wfail ≠ [] →
      blocks.length + 1 ≤ (blocksJoin blocks wfail).length := by
  intro blocks
  induction blocks with
  | nil =>
      intro wfail _ hw
      show 0 + 1 ≤ wfail.length
      have := List.length_pos.mpr hw
      omega
  | cons b bs ih =>
      intro wfail hacc hw
      obtain ⟨_, hbne, _, hacc2⟩ := hacc
      have h1 := ih wfail hacc2 hw
      have h2 : 0 < b.1.length := List.length_pos.mpr hbne
      show bs.length + 1 + 1 ≤ (b.1 ++ blocksJoin bs wfail).length
      rw [List.length_append]
      omega

theorem fallbackGoF_blocks (parse : String → Option String)
    (rep1 rep2 : List (String × String))
    (ctxOr o2 o3 o4 : String → List (String × String)) (step : Nat) :
    ∀ (blocks : List (List String × String)) (wfail : List String) (fuel : Nat),
      blocks.length + 1 ≤ fuel →
      BlocksAccepted parse rep1 rep2 blocks wfail →
      fallbackGoF parse rep1 rep2 ctxOr o2 o3 o4 step fuel (blocksJoin blocks wfail)
        = (fallbackWindows parse rep1 rep2 blocks wfail,
           blocks.map (fun b => postPiece ctxOr o2 o3 o4 step b.2)) := by
  intro blocks
  induction blocks with
  | nil =>
      intro wfail fuel hfuel hacc
      cases fuel with
      | zero => omega
      | succ f =>
          have heq : (tryPrefixes parse rep1 rep2 wfail (min (wfail.length - 1) 7)).2
              = none := hacc
          show fallbackGoF parse rep1 rep2 ctxOr o2 o3 o4 step (f + 1) wfail
            = ((tryPrefixes parse rep1 rep2 wfail (min (wfail.length - 1) 7)).1, [])
          simp only [fallbackGoF, heq]
  | cons b bs ih =>
      intro wfail fuel hfuel hacc
      obtain ⟨hwin, hbne, hrest, hacc2⟩ := hacc
      cases fuel with
      | zero =>
          rw [List.length_cons] at hfuel
          omega
      | succ f =>
          have hfuel2 : bs.length + 1 ≤ f := by
            rw [List.length_cons] at hfuel
            omega
          have hpos : 0 < b.1.length := List.length_pos.mpr hbne
          have h1 : b.1.length - 1 + 1 = b.1.length := by omega
          have hdrop : (blocksJoin (b :: bs) wfail).drop (b.1.length - 1 + 1)
              = blocksJoin bs wfail := by
            rw [h1]
            show (b.1 ++ blocksJoin bs wfail).drop b.1.length = blocksJoin bs wfail
            exact List.drop_left b.1 _
          simp only [fallbackGoF, hwin]
          rw [hdrop, if_neg hrest, ih wfail f hfuel2 hacc2]
          rfl

/-- C5 amended: when a segment fails to parse even after context expansion
and segmentation down to a one-token prefix, the failure contributes no
term and nothing is raised (the embedding is total), but the whole
remaining stream is discarded: for every run of the fallback that accepts
any number of blocks and then fails on the remaining tail, the returned
logical form is exactly the joined terms of the earlier accepted blocks
(so it may be partial or empty), and the token lists submitted to the
parser are exactly the windows over the accepted suffixes and the failing
tail - nothing after the failing point is processed. -/
theorem parse_command_discards_unparseable_stream
    (parse : String → Option String)
    (ctxOr o2 o3 o4 : String → List (String × String)) (step : Nat) (inp : PCIn)
    (blocks : List (List String × String)) (wfail : List String)
    (hwhole : parse_segment parse inp.stream 1 inp.rep1 inp.rep2 = "")
    (hne : inp.stream ≠ "")
    (hsplit : splitSpace inp.stream = blocksJoin blocks wfail)
    (hacc : BlocksAccepted parse inp.rep1 inp.rep2 blocks wfail) :
    (parse_command_model parse ctxOr o2 o3 o4 step inp).subs
      = fallbackWindows parse inp.rep1 inp.rep2 blocks wfail ∧
    (parse_command_model parse ctxOr o2 o3 o4 step inp).lf
      = (if 0 < step then
          replaceAllS "\n*" ""
            (replaceAllS "STOP_(" "_("
              (joinSemiPieces (blocks.map (fun b => postPiece ctxOr o2 o3 o4 step b.2))))
         else joinSemiPieces (blocks.map (fun b => postPiece ctxOr o2 o3 o4 step b.2))) := by
  have hwf : wfail ≠ [] := by
    cases hb : blocks with
    | nil =>
        intro hx
        apply splitSpace_ne_nil inp.stream
        rw [hsplit, hb, hx]
        rfl
    | cons b bs =>
        exact BlocksAccepted_tail_ne parse inp.rep1 inp.rep2 blocks wfail
          (by rw [hb]; exact List.cons_ne_nil b bs) hacc
  have hlen := BlocksAccepted_length parse inp.rep1 inp.rep2 blocks wfail hacc hwf
  have hfb := fallbackGoF_blocks parse inp.rep1 inp.rep2 ctxOr o2 o3 o4 step blocks wfail
    (blocksJoin blocks wfail).length hlen hacc
  simp only [parse_command_model, hwhole, ne_eq, not_true_eq_false, ite_false]
  rw [if_neg hne, hsplit]
  unfold fallbackGo
  rw [hfb]
  exact ⟨rfl, rfl⟩

/-- Witness for the C5 amended theorem: on the stream good bad with a
parser accepting only the word good, the two-token window fails, the
one-token window good is accepted, every window of the tail bad fails, and
the returned logical form keeps exactly the accepted term while bad is the
last token list ever submitted. -/
theorem parse_command_discards_unparseable_stream_witness :
    (parse_command_model c5Parse noOracle noOracle noOracle noOracle 0
        ⟨"good bad", [], []⟩).subs = [["good", "bad"], ["good"], ["bad"]] ∧
    (parse_command_model c5Parse noOracle noOracle noOracle noOracle 0
        ⟨"good bad", [], []⟩).lf = "_GOOD_(good1); " := by
  have h := parse_command_discards_unparseable_stream c5Parse noOracle noOracle noOracle
    noOracle 0 ⟨"good bad", [], []⟩ [(["good"], "_GOOD_(good1)")] ["bad"]
    (by decide) (by decide) (by decide)
    ⟨by decide, by decide, by decide,
     (by decide : (tryPrefixes c5Parse [] [] ["bad"]
        (min ((["bad"] : List String).length - 1) 7)).2 = none)⟩
  refine ⟨?_, ?_⟩
  · rw [h.1]
    decide
  · rw [h.2]
    decide

theorem toList_append (a b : String) : (a ++ b).toList = a.toList ++ b.toList :=
  String.data_append a b

theorem replaceAllC_removes (c : Char) :
    ∀ (n : Nat) (l : List Char), l.length ≤ n → c ∉ replaceAllC [c] [] l := by
  intro n
  induction n with
  | zero =>
      intro l hl
      have hnil : l = [] := List.eq_nil_of_length_eq_zero (Nat.le_zero.mp hl)
      subst hnil
      rw [replaceAllC_nil]
      simp
  | succ n ih =>
      intro l hl
      cases l with
      | nil => rw [replaceAllC_nil]; simp
      | cons d r =>
          rw [replaceAllC_cons]
          by_cases h : ([c] : List Char) ≠ [] ∧ ([c] : List Char).isPrefixOf (d :: r)
          · rw [if_pos h]
            simp only [List.length_singleton, Nat.sub_self, List.drop_zero, List.nil_append]
            apply ih
            simp only [List.length_cons] at hl
            omega
          · rw [if_neg h]
            have hcd : c ≠ d := by
              intro hx
              apply h
              refine ⟨by simp, ?_⟩
              subst hx
              simp [List.isPrefixOf]
            intro hmem
            rcases List.mem_cons.mp hmem with h1 | h1
            · exact hcd h1
            · refine absurd h1 (ih r ?_)
              simp only [List.length_cons] at hl
              omega

theorem Replaced.notMemS {pat rep s : String} {c : Char}
    (h : Replaced pat.toList rep.toList s.toList (replaceAllS pat rep s).toList)
    (hs : c ∉ s.toList) (hr : c ∉ rep.toList) : c ∉ (replaceAllS pat rep s).toList :=
  h.notMem hs hr

theorem replaceAllS_notMem (pat rep s : String) {c : Char}
    (hs : c ∉ s.toList) (hr : c ∉ rep.toList) : c ∉ (replaceAllS pat rep s).toList := by
  have h : (replaceAllS pat rep s).toList = replaceAllC pat.toList rep.toList s.toList := rfl
  rw [h]
  exact (replaceAllC_replaced pat.toList rep.toList s.toList).notMem hs hr

theorem foldl_preserve {α β : Type} (P : β → Prop) (step : β → α → β) :
    ∀ (l : List α), (∀ b a, a ∈ l → P b → P (step b a)) →
      ∀ b, P b → P (l.foldl step b) := by
  intro l
  induction l with
  | nil => intro _ b hb; exact hb
  | cons a l ih =>
      intro hstep b hb
      exact ih (fun b2 a2 ha2 hb2 => hstep b2 a2 (List.mem_cons_of_mem a ha2) hb2)
        (step b a) (hstep b a (List.mem_cons_self a l) hb)

theorem applyPairs_angleFree {prs : List (String × String)} {s : String}
    (hprs : ∀ pr ∈ prs, '<' ∉ (pr.2 : String).toList ∧ '>' ∉ (pr.2 : String).toList)
    (hs : angleFreeS s) : angleFreeS (applyPairs prs s) := by
  unfold applyPairs
  refine foldl_preserve angleFreeS _ prs ?_ s hs
  intro b pr hpr hb
  exact ⟨replaceAllS_notMem pr.1 pr.2 b hb.1 (hprs pr hpr).1,
         replaceAllS_notMem pr.1 pr.2 b hb.2 (hprs pr hpr).2⟩

theorem parse_segment_angleFree (parse : String → Option String) (segment : String)
    (maxExpansions : Nat) (rep1 rep2 : List (String × String)) :
    angleFreeS (parse_segment parse segment maxExpansions rep1 rep2) := by
  unfold parse_segment
  cases tryExpansions parse maxExpansions segment with
  | none => exact ⟨by simp, by simp⟩
  | some LF =>
      simp only
      constructor
      · have h1 : '<' ∉ (replaceAllS "<" "" (rep2.foldl
            (fun a pr => subWordFirstS pr.1 ("*" ++ pr.2 ++ "*") a)
            (rep1.foldl (fun a pr => subWordFirstS pr.1 ("*" ++ pr.2 ++ "*") a) LF))).toList := by
          have heq : (replaceAllS "<" "" (rep2.foldl
              (fun a pr => subWordFirstS pr.1 ("*" ++ pr.2 ++ "*") a)
              (rep1.foldl (fun a pr => subWordFirstS pr.1 ("*" ++ pr.2 ++ "*") a) LF))).toList
              = replaceAllC ['<'] [] (rep2.foldl
                  (fun a pr => subWordFirstS pr.1 ("*" ++ pr.2 ++ "*") a)
                  (rep1.foldl (fun a pr => subWordFirstS pr.1 ("*" ++ pr.2 ++ "*") a) LF)).toList := rfl
          rw [heq]
          exact replaceAllC_removes '<' _ _ (le_refl _)
        exact replaceAllS_notMem ">" "" _ h1 (by simp)
      · have heq : (replaceAllS ">" "" (replaceAllS "<" "" (rep2.foldl
            (fun a pr => subWordFirstS pr.1 ("*" ++ pr.2 ++ "*") a)
            (rep1.foldl (fun a pr => subWordFirstS pr.1 ("*" ++ pr.2 ++ "*") a) LF)))).toList
            = replaceAllC ['>'] [] (replaceAllS "<" "" (rep2.foldl
                (fun a pr => subWordFirstS pr.1 ("*" ++ pr.2 ++ "*") a)
                (rep1.foldl (fun a pr => subWordFirstS pr.1 ("*" ++ pr.2 ++ "*") a) LF))).toList := rfl
        rw [heq]
        exact replaceAllC_removes '>' _ _ (le_refl _)

theorem applyOracle_angleFree {o : String → List (String × String)}
    (ho : oracleAngleFree o) {s : String} (hs : angleFreeS s) :
    angleFreeS (applyOracle o s) :=
  applyPairs_angleFree (fun pr hpr => ho s pr hpr) hs

theorem applyOracleChecked_angleFree {o : String → List (String × String)}
    (ho : oracleAngleFree o) {s : String} (hs : angleFreeS s) :
    angleFreeS (applyOracleChecked o s) := by
  unfold applyOracleChecked
  refine foldl_preserve angleFreeS _ _ ?_ _ hs
  intro b pr hpr hb
  by_cases hbc : bracket_check pr.2 = true
  · rw [if_pos hbc]
    exact ⟨replaceAllS_notMem pr.1 pr.2 b hb.1 (ho _ pr hpr).1,
           replaceAllS_notMem pr.1 pr.2 b hb.2 (ho _ pr hpr).2⟩
  · rw [if_neg hbc]
    exact hb

theorem clean_LF_angleFree {o2 o3 o4 : String → List (String × String)}
    (h2 : oracleAngleFree o2) (h3 : oracleAngleFree o3) (h4 : oracleAngleFree o4)
    {p : String} (hp : angleFreeS p) : angleFreeS (clean_LF o2 o3 o4 p) := by
  unfold clean_LF
  have hp1 : angleFreeS (replaceAllS ")*" ")" (replaceAllS "*_" "_" p)) := by
    constructor
    · exact replaceAllS_notMem _ _ _ (replaceAllS_notMem _ _ _ hp.1 (by decide)) (by decide)
    · exact replaceAllS_notMem _ _ _ (replaceAllS_notMem _ _ _ hp.2 (by decide)) (by decide)
  exact applyOracleChecked_angleFree h4
    (applyOracle_angleFree h3 (applyOracle_angleFree h2 hp1))

theorem postPiece_angleFree {ctxOr o2 o3 o4 : String → List (String × String)}
    (hctx : oracleAngleFree ctxOr) (h2 : oracleAngleFree o2)
    (h3 : oracleAngleFree o3) (h4 : oracleAngleFree o4)
    (step : Nat) {p : String} (hp : angleFreeS p) :
    angleFreeS (postPiece ctxOr o2 o3 o4 step p) := by
  unfold postPiece ctxUnwrap
  have hp1 := applyOracle_angleFree hctx hp
  by_cases hs : 0 < step
  · rw [if_pos hs]
    exact clean_LF_angleFree h2 h3 h4 hp1
  · rw [if_neg hs]
    exact hp1

theorem tryPrefixes_piece_angleFree (parse : String → Option String)
    (rep1 rep2 : List (String × String)) (words : List String) :
    ∀ (j : Nat) (jlf : Nat × String),
      (tryPrefixes parse rep1 rep2 words j).2 = some jlf → angleFreeS jlf.2 := by
  intro j
  induction j with
  | zero =>
      intro jlf hres
      simp only [tryPrefixes] at hres
      by_cases hr : parse_segment parse (joinSpace (words.take 1)) 1 rep1 rep2 ≠ ""
      · rw [if_pos hr] at hres
        simp only [Option.some.injEq] at hres
        rw [← hres]
        exact parse_segment_angleFree parse _ 1 rep1 rep2
      · rw [if_neg hr] at hres
        exact absurd hres (by simp)
  | succ j2 ih =>
      intro jlf hres
      simp only [tryPrefixes] at hres
      by_cases hr : parse_segment parse (joinSpace (words.take (j2 + 2))) 1 rep1 rep2 ≠ ""
      · rw [if_pos hr] at hres
        simp only [Option.some.injEq] at hres
        rw [← hres]
        exact parse_segment_angleFree parse _ 1 rep1 rep2
      · rw [if_neg hr] at hres
        exact ih jlf hres

theorem fallbackGoF_pieces_angleFree (parse : String → Option String)
    (rep1 rep2 : List (String × String))
    {ctxOr o2 o3 o4 : String → List (String × String)}
    (hctx : oracleAngleFree ctxOr) (h2 : oracleAngleFree o2)
    (h3 : oracleAngleFree o3) (h4 : oracleAngleFree o4) (step : Nat) :
    ∀ (fuel : Nat) (words : List String),
      ∀ p ∈ (fallbackGoF parse rep1 rep2 ctxOr o2 o3 o4 step fuel words).2,
        angleFreeS p := by
  intro fuel
  induction fuel with
  | zero => intro words p hp; simp [fallbackGoF] at hp
  | succ fuel ih =>
      intro words p hp
      simp only [fallbackGoF] at hp
      split at hp
      · have h0 : p ∈ ([] : List String) := hp
        simp at h0
      · rename_i jlf heq
        by_cases hrest : joinSpace (words.drop (jlf.1 + 1)) = ""
        · rw [if_pos hrest] at hp
          have h0 : p ∈ [postPiece ctxOr o2 o3 o4 step jlf.2] := hp
          have hpp : p = postPiece ctxOr o2 o3 o4 step jlf.2 := by simpa using h0
          subst hpp
          exact postPiece_angleFree hctx h2 h3 h4 step
            (tryPrefixes_piece_angleFree parse rep1 rep2 words _ jlf heq)
        · rw [if_neg hrest] at hp
          have h0 : p ∈ postPiece ctxOr o2 o3 o4 step jlf.2 ::
              (fallbackGoF parse rep1 rep2 ctxOr o2 o3 o4 step fuel
                (words.drop (jlf.1 + 1))).2 := hp
          rcases List.mem_cons.mp h0 with h1 | h1
          · subst h1
            exact postPiece_angleFree hctx h2 h3 h4 step
              (tryPrefixes_piece_angleFree parse rep1 rep2 words _ jlf heq)
          · exact ih (words.drop (jlf.1 + 1)) p h1

theorem joinSemiPieces_angleFree {ps : List String}
    (hps : ∀ p ∈ ps, angleFreeS p) : angleFreeS (joinSemiPieces ps) := by
  induction ps with
  | nil => exact ⟨by decide, by decide⟩
  | cons p ps ih =>
      have hp := hps p (List.mem_cons_self p ps)
      have hrest := ih (fun q hq => hps q (List.mem_cons_of_mem p hq))
      constructor
      · show '<' ∉ (p ++ "; " ++ joinSemiPieces ps).toList
        rw [toList_append, toList_append]
        intro hmem
        rcases List.mem_append.mp hmem with hm | hm
        · rcases List.mem_append.mp hm with hm2 | hm2
          · exact hp.1 hm2
          · simp at hm2
        · exact hrest.1 hm
      · show '>' ∉ (p ++ "; " ++ joinSemiPieces ps).toList
        rw [toList_append, toList_append]
        intro hmem
        rcases List.mem_append.mp hmem with hm | hm
        · rcases List.mem_append.mp hm with hm2 | hm2
          · exact hp.2 hm2
          · simp at hm2
        · exact hrest.2 hm

theorem parse_command_angleFree (parse : String → Option String)
    {ctxOr o2 o3 o4 : String → List (String × String)}
    (hctx : oracleAngleFree ctxOr) (h2 : oracleAngleFree o2)
    (h3 : oracleAngleFree o3) (h4 : oracleAngleFree o4)
    (step : Nat) (inp : PCIn) :
    angleFreeS (parse_command_model parse ctxOr o2 o3 o4 step inp).lf := by
  unfold parse_command_model
  simp only
  have hpieces : ∀ p ∈ (if parse_segment parse inp.stream 1 inp.rep1 inp.rep2 ≠ "" then
        (([] : List (List String)),
          [postPiece ctxOr o2 o3 o4 step (parse_segment parse inp.stream 1 inp.rep1 inp.rep2)])
      else if inp.stream = "" then ([], [])
      else fallbackGo parse inp.rep1 inp.rep2 ctxOr o2 o3 o4 step
        (splitSpace inp.stream)).2, angleFreeS p := by
    by_cases h1 : parse_segment parse inp.stream 1 inp.rep1 inp.rep2 ≠ ""
    · rw [if_pos h1]
      intro p hp
      have hpp : p = postPiece ctxOr o2 o3 o4 step
          (parse_segment parse inp.stream 1 inp.rep1 inp.rep2) := by simpa using hp
      subst hpp
      exact postPiece_angleFree hctx h2 h3 h4 step
        (parse_segment_angleFree parse inp.stream 1 inp.rep1 inp.rep2)
    · rw [if_neg h1]
      by_cases hs : inp.stream = ""
      · rw [if_pos hs]
        intro p hp
        simp at hp
      · rw [if_neg hs]
        intro p hp
        exact fallbackGoF_pieces_angleFree parse inp.rep1 inp.rep2 hctx h2 h3 h4 step
          (splitSpace inp.stream).length (splitSpace inp.stream) p hp
  have hbody := joinSemiPieces_angleFree hpieces
  by_cases hs : 0 < step
  · rw [if_pos hs]
    constructor
    · exact replaceAllS_notMem _ _ _
        (replaceAllS_notMem _ _ _ hbody.1 (by decide)) (by decide)
    · exact replaceAllS_notMem _ _ _
        (replaceAllS_notMem _ _ _ hbody.2 (by decide)) (by decide)
  · rw [if_neg hs]
    exact hbody

theorem stepLoop_invariant (f : String → String) (P : String → Prop)
    (hf : ∀ x, P (f x)) : ∀ (m : Nat) (lf : String), P lf → P (stepLoop f lf m) := by
  intro m
  induction m with
  | zero => intro lf hlf; exact hlf
  | succ m ih =>
      intro lf hlf
      show P (let lf2 := f lf; if lf2 = lf then lf2 else stepLoop f lf2 m)
      by_cases h : f lf = lf
      · simp only [h, ite_true]
        exact hlf
      · simp only [if_neg h]
        exact ih (f lf) (hf lf)

theorem pipelineLoop_invariant (g f : String → String) (P : String → Prop)
    (hg : ∀ c, P (g c)) (hf : ∀ x, P (f x)) :
    ∀ (c : String) (n : Nat) (lf : String), pipelineLoop g f c n = some lf → P lf := by
  intro c n lf hres
  cases n with
  | zero => exact absurd hres (by simp [pipelineLoop])
  | succ m =>
      simp only [pipelineLoop] at hres
      by_cases h0 : g c = ""
      · rw [if_pos h0] at hres
        simp only [Option.some.injEq] at hres
        rw [← hres]
        exact hg c
      · rw [if_neg h0] at hres
        simp only [Option.some.injEq] at hres
        rw [← hres]
        exact stepLoop_invariant f P hf m (g c) (hg c)

/-- C10: every logical form returned by parse_segment contains no angle
marker (the surrogate wrapping is stripped on every success path,
line 1222), and hence, with the finditer oracles returning marker-free
replacements as their patterns guarantee on marker-free inputs, every
logical form returned by parsing contains no angle marker either. -/
theorem parsing_no_angle_markers
    (parse0 parseN : String → Option String) (mk0 : String → PCIn)
    (ctxOr o2 o3 o4 : String → List (String × String))
    (hctx : oracleAngleFree ctxOr) (h2 : oracleAngleFree o2)
    (h3 : oracleAngleFree o3) (h4 : oracleAngleFree o4) :
    (∀ (parse : String → Option String) (segment : String) (maxExpansions : Nat)
        (rep1 rep2 : List (String × String)),
        '<' ∉ (parse_segment parse segment maxExpansions rep1 rep2).toList ∧
        '>' ∉ (parse_segment parse segment maxExpansions rep1 rep2).toList) ∧
    ∀ (command : String) (n : Nat) (lf : String),
      parsingModel parse0 parseN mk0 ctxOr o2 o3 o4 command n = some lf →
      '<' ∉ lf.toList ∧ '>' ∉ lf.toList := by
  constructor
  · intro parse segment maxExpansions rep1 rep2
    exact parse_segment_angleFree parse segment maxExpansions rep1 rep2
  · intro command n lf hres
    refine pipelineLoop_invariant _ _ angleFreeS ?_ ?_ command n lf hres
    · intro c
      exact parse_command_angleFree parse0 hctx h2 h3 h4 0 (mk0 c)
    · intro x
      exact parse_command_angleFree parseN hctx h2 h3 h4 1 _

/-- Witness for C10 at a concrete instantiation: empty oracles and a parser
that emits a logical form still carrying placeholder markers is impossible;
here the one-step run on a concrete command. -/
theorem parsing_no_angle_markers_witness :
    '<' ∉ (parse_segment alwaysNoneParse "callsign1" 1 [] []).toList ∧
    '>' ∉ (parse_segment alwaysNoneParse "callsign1" 1 [] []).toList := by
  have h := parsing_no_angle_markers alwaysNoneParse alwaysNoneParse emptyMk0
    noOracle noOracle noOracle noOracle
    (fun _ pr hpr => by simp [noOracle] at hpr)
    (fun _ pr hpr => by simp [noOracle] at hpr)
    (fun _ pr hpr => by simp [noOracle] at hpr)
    (fun _ pr hpr => by simp [noOracle] at hpr)
  exact h.1 alwaysNoneParse "callsign1" 1 [] []

end ATC
